import Mathlib

/-!
# Verification of the aqua_db page-oriented storage engine

Shallow embedding of the Rust sources of `wim-web/aqua_db`:

* `src/catalog.rs` — catalog / schema / column types;
* `src/storage/tuple.rs`, `src/storage/page.rs` — the fixed-width page and
  tuple codec (byte images are `List Nat`, each entry a byte value);
* `src/query.rs` — the line-oriented query parser;
* `src/storage/replacer.rs`, `hash_table.rs`, `descriptors.rs`,
  `buffer_pool.rs`, `disk_manager.rs`, `buffer_pool_manager.rs` — the buffer
  pool manager, modelled as a state machine with explicit state passing;
* `src/executor.rs` — insert and scan built on the manager.

Rust panics (slice out of bounds, `unwrap`, arithmetic underflow) are modelled
as `none` / a distinguished `panic` constructor; fallible operations return
`Option`.  Disk files are modelled at page granularity (the byte-level codec
is verified separately); the `DefaultHasher` of the sharded page table is an
opaque parameter `hash` of every operation that consults it.
-/

namespace AquaDB

set_option maxRecDepth 4000

/-! ## Catalog (`src/catalog.rs`) -/

/-- `Column { types, name }`. -/
structure Column where
  types : String
  name : String
deriving DecidableEq

/-- `Table { name, columns }`. -/
structure Table where
  name : String
  columns : List Column
deriving DecidableEq

/-- `Schema { table }`. -/
structure Schema where
  table : Table
deriving DecidableEq

/-- `Catalog::get_schema_by_table_name` (the `map` index is a lookup cache;
we look the name up directly). -/
def findSchema (cat : List Schema) (table_name : String) : Option Schema :=
  cat.find? (fun s => s.table.name = table_name)

/-- `Catalog::exist_table`. -/
def existTable (cat : List Schema) (table_name : String) : Bool :=
  (findSchema cat table_name).isSome

/-- `AttributeType`: `Int(i32)` or `Text(String)`.  A Rust `String` is its
UTF-8 byte sequence; validity of those bytes is tracked separately by
`utf8Valid` (it is an invariant of the Rust type, not of this model). -/
inductive AttributeType where
  | int (v : Int)
  | text (bytes : List Nat)
deriving DecidableEq

/-- `TUPLE_HEADER_SIZE`. -/
def tupleHeaderSize : Nat := 8

/-- `PAGE_SIZE`. -/
def pageSize : Nat := 4096

/-- `PAGE_HEADER_SIZE`. -/
def pageHeaderSize : Nat := 32

/-- Per-column byte width used by `Table::tuple_size` (`int → 4`,
`text → 256`, anything else contributes 0). -/
def colSize (c : Column) : Nat :=
  if c.types = "int" then 4 else if c.types = "text" then 256 else 0

/-- `Table::tuple_size`: 8-byte header plus the column widths (the Rust fold
computes exactly this sum). -/
def tupleSize (cols : List Column) : Nat :=
  tupleHeaderSize + (cols.map colSize).sum

/-! ## Byte-level helpers

`u32::to_be_bytes` / `from_be_bytes` and the `i32` versions, over `Nat`
bytes. -/

/-- Big-endian 4-byte image of a `u32` value. -/
def be4 (n : Nat) : List Nat :=
  [n / 2 ^ 24 % 256, n / 2 ^ 16 % 256, n / 2 ^ 8 % 256, n % 256]

/-- `u32::from_be_bytes` on the first four entries. -/
def fromBe4 (l : List Nat) : Nat :=
  ((l.getD 0 0 * 256 + l.getD 1 0) * 256 + l.getD 2 0) * 256 + l.getD 3 0

/-- `i32::to_be_bytes`: big-endian two's complement. -/
def i32ToBytes (v : Int) : List Nat := be4 (v % 2 ^ 32).toNat

/-- `i32::from_be_bytes`. -/
def i32FromBytes (l : List Nat) : Int :=
  let n := fromBe4 l
  if n < 2 ^ 31 then (n : Int) else (n : Int) - 2 ^ 32

/-! ## UTF-8 validity (`String::from_utf8`)

The standard UTF-8 acceptance automaton: used to model the
`String::from_utf8(...).unwrap()` in `TupleBody::fill`, which panics on
invalid payload bytes. -/

/-- A UTF-8 continuation byte. -/
def isCont (b : Nat) : Bool := decide (0x80 ≤ b ∧ b ≤ 0xBF)

/-- Whether a byte sequence is valid UTF-8 (what `String::from_utf8`
accepts). -/
def utf8Valid : List Nat → Bool
  | [] => true
  | b :: rest =>
    if b < 0x80 then utf8Valid rest
    else if 0xC2 ≤ b ∧ b ≤ 0xDF then
      match rest with
      | c1 :: rest' => isCont c1 && utf8Valid rest'
      | [] => false
    else if b = 0xE0 then
      match rest with
      | c1 :: c2 :: rest' =>
        decide (0xA0 ≤ c1 ∧ c1 ≤ 0xBF) && isCont c2 && utf8Valid rest'
      | _ => false
    else if (0xE1 ≤ b ∧ b ≤ 0xEC) ∨ b = 0xEE ∨ b = 0xEF then
      match rest with
      | c1 :: c2 :: rest' => isCont c1 && isCont c2 && utf8Valid rest'
      | _ => false
    else if b = 0xED then
      match rest with
      | c1 :: c2 :: rest' =>
        decide (0x80 ≤ c1 ∧ c1 ≤ 0x9F) && isCont c2 && utf8Valid rest'
      | _ => false
    else if b = 0xF0 then
      match rest with
      | c1 :: c2 :: c3 :: rest' =>
        decide (0x90 ≤ c1 ∧ c1 ≤ 0xBF) && isCont c2 && isCont c3 && utf8Valid rest'
      | _ => false
    else if 0xF1 ≤ b ∧ b ≤ 0xF3 then
      match rest with
      | c1 :: c2 :: c3 :: rest' => isCont c1 && isCont c2 && isCont c3 && utf8Valid rest'
      | _ => false
    else if b = 0xF4 then
      match rest with
      | c1 :: c2 :: c3 :: rest' =>
        decide (0x80 ≤ c1 ∧ c1 ≤ 0x8F) && isCont c2 && isCont c3 && utf8Valid rest'
      | _ => false
    else false

/-! ## Tuples (`src/storage/tuple.rs`) -/

/-- `TupleHeader { deleted: u8 }` (the remaining 7 header bytes are
reserved zeros). -/
structure TupleHeader where
  deleted : Nat
deriving DecidableEq

/-- Association lookup standing for `HashMap::get` on the attribute map. -/
def lookupA (k : String) : List (String × AttributeType) → Option AttributeType
  | [] => none
  | (k', v) :: rest => if k' = k then some v else lookupA k rest

/-- `HashMap::insert` on the attribute map: replace an existing binding,
otherwise append. -/
def mapInsert (m : List (String × AttributeType)) (k : String) (v : AttributeType) :
    List (String × AttributeType) :=
  match m with
  | [] => [(k, v)]
  | (k', v') :: rest => if k' = k then (k, v) :: rest else (k', v') :: mapInsert rest k v

/-- `TupleBody { attributes: HashMap<String, AttributeType> }`, as an
association list (insertion order; lookups go through `lookupA`). -/
structure TupleBody where
  attributes : List (String × AttributeType)
deriving DecidableEq

/-- `Tuple { header, body }`. -/
structure Tuple where
  header : TupleHeader
  body : TupleBody
deriving DecidableEq

/-- `TupleHeader::raw`: the `deleted` byte then 7 zero padding bytes
(`deleted` is a `u8`, hence the `% 256`). -/
def TupleHeader.raw (h : TupleHeader) : List Nat :=
  h.deleted % 256 :: List.replicate 7 0

/-- `TupleHeader::fill`: read the first byte of the slice; an empty slice
would panic (`raw[..1]`). -/
def TupleHeader.fill (raw : List Nat) : Option TupleHeader :=
  match raw with
  | b :: _ => some ⟨b⟩
  | [] => none

/-- The per-column byte emission of `TupleBody::raw` (the looked-up
attribute must match the column type; `int` emits 4 big-endian bytes,
`text` a length byte, the payload and zero padding to 255 payload bytes; a
payload longer than 255 bytes makes `255 - len` underflow — a panic, hence
`none`; an unknown column type falls through to `None` and the `unwrap`
panics). -/
def colBytes (c : Column) (t : AttributeType) : Option (List Nat) :=
  if c.types = "int" then
    match t with
    | .int v => some (i32ToBytes v)
    | _ => none
  else if c.types = "text" then
    match t with
    | .text s =>
      if s.length ≤ 255 then some (s.length :: s ++ List.replicate (255 - s.length) 0)
      else none
    | _ => none
  else none

/-- `TupleBody::raw` over the schema columns: per column, look the
attribute up (`HashMap::get` — absence makes the `unwrap` panic, hence
`none`) and emit its bytes via `colBytes`, concatenating in declared column
order. -/
def rawCols (attrs : List (String × AttributeType)) : List Column → Option (List Nat)
  | [] => some []
  | c :: cs =>
    match lookupA c.name attrs with
    | none => none
    | some t =>
      match colBytes c t with
      | none => none
      | some bs =>
        match rawCols attrs cs with
        | none => none
        | some rest => some (bs ++ rest)

/-- `TupleBody::fill`, consuming the body slice column by column with the
attribute map accumulated in `acc` (the Rust code advances an offset into
the slice; consuming the list is the same reading).  `int` takes 4 bytes;
`text` takes a length byte plus 255 payload bytes of which the first `L`
form the string — `String::from_utf8(...).unwrap()` panics (`none`) if they
are not valid UTF-8.  A slice too short for the column panics (`none`), and
an unknown column type hits the `panic!` arm. -/
def fillCols (acc : List (String × AttributeType)) :
    List Column → List Nat → Option (List (String × AttributeType))
  | [], _ => some acc
  | c :: cs, rest =>
    if c.types = "int" then
      if 4 ≤ rest.length then
        fillCols (mapInsert acc c.name (.int (i32FromBytes (rest.take 4)))) cs (rest.drop 4)
      else none
    else if c.types = "text" then
      if 256 ≤ rest.length then
        let L := rest.headD 0
        let payload := ((rest.drop 1).take 255).take L
        if utf8Valid payload then
          fillCols (mapInsert acc c.name (.text payload)) cs (rest.drop 256)
        else none
      else none
    else none

/-- `Tuple::raw`: header bytes then body bytes. -/
def Tuple.raw (t : Tuple) (cols : List Column) : Option (List Nat) :=
  match rawCols t.body.attributes cols with
  | none => none
  | some body => some (t.header.raw ++ body)

/-- `Tuple::fill`: `raw[..8]` feeds the header (panics if the slice is
shorter than 8 bytes), `raw[8..]` feeds the body. -/
def Tuple.fill (raw : List Nat) (cols : List Column) : Option Tuple :=
  if 8 ≤ raw.length then
    match TupleHeader.fill (raw.take 8) with
    | none => none
    | some h =>
      match fillCols [] cols (raw.drop 8) with
      | none => none
      | some attrs => some ⟨h, ⟨attrs⟩⟩
  else none

/-! ## Pages (`src/storage/page.rs`) -/

/-- `PageHeader { tuple_count: u32 }` (28 reserved zero bytes follow in the
encoding). -/
structure PageHeader where
  tuple_count : Nat
deriving DecidableEq

/-- `Page { id, header, body }` (the constant `size` field, always
`PAGE_SIZE`, is omitted). -/
structure Page where
  id : Nat
  header : PageHeader
  body : List Tuple
deriving DecidableEq

/-- `Page::default()`: id 0, no tuples. -/
def defaultPage : Page := ⟨0, ⟨0⟩, []⟩

/-- `Page::add_tuple`: increment `tuple_count`, push the tuple. -/
def Page.add_tuple (p : Page) (t : Tuple) : Page :=
  { p with header := ⟨p.header.tuple_count + 1⟩, body := p.body ++ [t] }

/-- `PageHeader::raw`: `tuple_count.to_be_bytes()` (a `u32`, hence the
`% 2 ^ 32`) then 28 reserved zero bytes. -/
def PageHeader.raw (h : PageHeader) : List Nat :=
  be4 (h.tuple_count % 2 ^ 32) ++ List.replicate 28 0

/-- `PageHeader::fill`: `u32::from_be_bytes(raw[..4])`. -/
def PageHeader.fill (raw : List Nat) : PageHeader :=
  ⟨fromBe4 (raw.take 4)⟩

/-- The tuple-encoding loop of `Page::raw` (tuples appended in order). -/
def rawTuples (cols : List Column) : List Tuple → Option (List Nat)
  | [] => some []
  | t :: ts =>
    match t.raw cols with
    | none => none
    | some bs =>
      match rawTuples cols ts with
      | none => none
      | some rest => some (bs ++ rest)

/-- `Page::raw`: header, tuples in insertion order, zero padding when the
image is shorter than `PAGE_SIZE` (a longer image is returned unpadded, as
in the source). -/
def Page.raw (p : Page) (cols : List Column) : Option (List Nat) :=
  match rawTuples cols p.body with
  | none => none
  | some body =>
    let b := p.header.raw ++ body
    some (if b.length < pageSize then b ++ List.replicate (pageSize - b.length) 0 else b)

/-- The decoding loop of `Page::fill`: `count` tuples from
`raw[offset..offset + tuple_size]` slices (an out-of-range slice panics,
hence `none`). -/
def fillTuples (cols : List Column) (raw : List Nat) (offset : Nat) :
    Nat → Option (List Tuple)
  | 0 => some []
  | n + 1 =>
    if offset + tupleSize cols ≤ raw.length then
      match Tuple.fill ((raw.drop offset).take (tupleSize cols)) cols with
      | none => none
      | some t =>
        match fillTuples cols raw (offset + tupleSize cols) n with
        | none => none
        | some rest => some (t :: rest)
    else none

/-- `Page::fill`: asserts the image is exactly `PAGE_SIZE` bytes (panic,
i.e. `none`, otherwise), reads `tuple_count` from the 32-byte header, then
decodes exactly that many tuples.  The page id is not part of the image and
is left unchanged. -/
def Page.fill (p : Page) (raw : List Nat) (cols : List Column) : Option Page :=
  if raw.length = pageSize then
    let h := PageHeader.fill (raw.take 32)
    match fillTuples cols raw 32 h.tuple_count with
    | none => none
    | some ts => some { p with header := h, body := ts }
  else none

/-! ## Well-formedness side conditions

These are invariants of the Rust *types*, not extra assumptions: every
`text` attribute is a Rust `String` and therefore valid UTF-8, every
`Page` reachable through the API keeps `tuple_count` equal to the number
of tuples in `body` (`default`, `add_tuple` and `fill` all preserve it),
and the catalog's column names are unique within a table (spec §3). -/

/-- Every `text` attribute a column of `cols` selects in `t` is valid
UTF-8 (the `String` invariant). -/
def tupleWF (cols : List Column) (t : Tuple) : Bool :=
  cols.all fun c =>
    if c.types = "text" then
      match lookupA c.name t.body.attributes with
      | some (.text s) => utf8Valid s
      | _ => true
    else true

/-- `tuple_count` matches the body and every tuple is `tupleWF`. -/
def pageWF (cols : List Column) (p : Page) : Bool :=
  (p.header.tuple_count == p.body.length) && p.body.all (tupleWF cols)

/-! ## Codec round-trip lemmas -/

theorem be4_length (n : Nat) : (be4 n).length = 4 := rfl

theorem fromBe4_be4 (n : Nat) : fromBe4 (be4 n) = n % 2 ^ 32 := by
  simp only [be4, fromBe4, List.getD]
  simp only [List.get?_eq_getElem?, List.getElem?_cons_zero, List.getElem?_cons_succ,
    Option.getD_some]
  omega

theorem be4_mod (n : Nat) : be4 (n % 2 ^ 32) = be4 n := by
  simp only [be4, List.cons.injEq, and_true]
  refine ⟨?_, ?_, ?_, ?_⟩ <;> omega

theorem i32ToBytes_toNat_lt (v : Int) : (v % 2 ^ 32).toNat < 2 ^ 32 := by omega

/-- Decoding four bytes produced by `i32::to_be_bytes` and re-encoding
gives the same four bytes. -/
theorem i32_reencode (v : Int) :
    i32ToBytes (i32FromBytes (i32ToBytes v)) = i32ToBytes v := by
  unfold i32ToBytes i32FromBytes
  rw [fromBe4_be4]
  have h1 : (v % 2 ^ 32).toNat % 2 ^ 32 = (v % 2 ^ 32).toNat := by omega
  rw [h1]
  set m : Nat := (v % 2 ^ 32).toNat with hm
  have hmlt : m < 2 ^ 32 := by omega
  by_cases h : m < 2 ^ 31
  · simp only [h, if_pos]
    have : ((m : Int) % 2 ^ 32).toNat = m := by omega
    rw [this]
  · simp only [h, if_neg, not_false_iff]
    have : (((m : Int) - 2 ^ 32) % 2 ^ 32).toNat = m := by omega
    rw [this]

theorem mapInsert_fresh (acc : List (String × AttributeType)) (k : String)
    (v : AttributeType) (h : ∀ p ∈ acc, p.1 ≠ k) :
    mapInsert acc k v = acc ++ [(k, v)] := by
  induction acc with
  | nil => rfl
  | cons p rest ih =>
    have hp : p.1 ≠ k := h p (List.mem_cons_self p rest)
    cases p with
    | mk k' v' =>
      simp only [mapInsert, if_neg hp, List.cons_append, List.cons.injEq, true_and]
      exact ih (fun q hq => h q (List.mem_cons_of_mem _ hq))

theorem lookupA_append (junk l : List (String × AttributeType)) (k : String)
    (h : ∀ p ∈ junk, p.1 ≠ k) :
    lookupA k (junk ++ l) = lookupA k l := by
  induction junk with
  | nil => rfl
  | cons p rest ih =>
    have hp : p.1 ≠ k := h p (List.mem_cons_self p rest)
    cases p with
    | mk k' v' =>
      simp only [List.cons_append, lookupA, if_neg hp]
      exact ih (fun q hq => h q (List.mem_cons_of_mem _ hq))

/-- Inversion of one step of `rawCols`. -/
theorem rawCols_cons_inv (attrs : List (String × AttributeType)) (c : Column)
    (cs : List Column) (bbs : List Nat) (h : rawCols attrs (c :: cs) = some bbs) :
    ∃ t bs rest, lookupA c.name attrs = some t ∧ colBytes c t = some bs ∧
      rawCols attrs cs = some rest ∧ bbs = bs ++ rest := by
  rw [rawCols] at h
  split at h
  · exact absurd h (by simp)
  next t hl =>
    split at h
    · exact absurd h (by simp)
    next bs hb =>
      split at h
      · exact absurd h (by simp)
      next rest hr =>
        simp only [Option.some.injEq] at h
        exact ⟨t, bs, rest, hl, hb, hr, h.symm⟩

/-- Inversion of `colBytes`: the bytes of a column are either an `int`
image or a `text` image, and have length `colSize`. -/
theorem colBytes_inv (c : Column) (t : AttributeType) (bs : List Nat)
    (h : colBytes c t = some bs) :
    (∃ v, c.types = "int" ∧ t = .int v ∧ bs = i32ToBytes v) ∨
    (∃ s, c.types = "text" ∧ t = .text s ∧ s.length ≤ 255 ∧
      bs = s.length :: s ++ List.replicate (255 - s.length) 0) := by
  unfold colBytes at h
  by_cases hint : c.types = "int"
  · rw [if_pos hint] at h
    cases t with
    | int v =>
      simp only [Option.some.injEq] at h
      exact Or.inl ⟨v, hint, rfl, h.symm⟩
    | text s => exact absurd h (by simp)
  · rw [if_neg hint] at h
    by_cases htext : c.types = "text"
    · rw [if_pos htext] at h
      cases t with
      | int v => exact absurd h (by simp)
      | text s =>
        simp only at h
        by_cases hlen : s.length ≤ 255
        · rw [if_pos hlen] at h
          simp only [Option.some.injEq] at h
          exact Or.inr ⟨s, htext, rfl, hlen, h.symm⟩
        · rw [if_neg hlen] at h; exact absurd h (by simp)
    · rw [if_neg htext] at h; exact absurd h (by simp)

theorem colBytes_length (c : Column) (t : AttributeType) (bs : List Nat)
    (h : colBytes c t = some bs) : bs.length = colSize c := by
  rcases colBytes_inv c t bs h with ⟨v, hty, _, hbs⟩ | ⟨s, hty, _, hlen, hbs⟩
  · subst hbs; simp [i32ToBytes, be4, colSize, hty]
  · subst hbs
    have : c.types ≠ "int" := by rw [hty]; decide
    simp only [colSize, if_neg this, if_pos hty, List.length_cons, List.length_append,
      List.length_replicate]
    omega

theorem rawCols_length (attrs : List (String × AttributeType)) :
    ∀ (cols : List Column) (bbs : List Nat),
      rawCols attrs cols = some bbs → bbs.length = (cols.map colSize).sum := by
  intro cols
  induction cols with
  | nil =>
    intro bbs h
    simp only [rawCols, Option.some.injEq] at h
    simp [← h]
  | cons c cs ih =>
    intro bbs h
    obtain ⟨t, bs, rest, _, hbs, hrest, hbbs⟩ := rawCols_cons_inv attrs c cs bbs h
    subst hbbs
    simp [colBytes_length c t bs hbs, ih rest hrest]

/-- Inversion of `Tuple.raw`. -/
theorem tupleRaw_inv (cols : List Column) (t : Tuple) (bs : List Nat)
    (h : t.raw cols = some bs) :
    ∃ body, rawCols t.body.attributes cols = some body ∧ bs = t.header.raw ++ body := by
  rw [Tuple.raw] at h
  split at h
  · exact absurd h (by simp)
  next body hr =>
    simp only [Option.some.injEq] at h
    exact ⟨body, hr, h.symm⟩

theorem tupleRaw_length (cols : List Column) (t : Tuple) (bs : List Nat)
    (h : t.raw cols = some bs) : bs.length = tupleSize cols := by
  obtain ⟨body, hbody, hbs⟩ := tupleRaw_inv cols t bs h
  subst hbs
  have := rawCols_length t.body.attributes cols body hbody
  simp only [List.length_append, TupleHeader.raw, List.length_cons, List.length_replicate,
    tupleSize, tupleHeaderSize, this]

theorem tupleWF_text (cols : List Column) (t : Tuple) (h : tupleWF cols t = true) :
    ∀ c ∈ cols, c.types = "text" → ∀ s,
      lookupA c.name t.body.attributes = some (.text s) → utf8Valid s = true := by
  intro c hc hty s hs
  rw [tupleWF, List.all_eq_true] at h
  have hx := h c hc
  rw [if_pos hty, hs] at hx
  simpa using hx

/-- Decoding the body bytes produced by `TupleBody::raw` recovers an
attribute map that re-encodes to the same bytes (column names unique, text
payloads valid UTF-8). -/
theorem fillCols_of_rawCols :
    ∀ (cols : List Column) (attrs : List (String × AttributeType)) (bbs : List Nat)
      (acc : List (String × AttributeType)),
      rawCols attrs cols = some bbs →
      (∀ c ∈ cols, c.types = "text" → ∀ s,
        lookupA c.name attrs = some (.text s) → utf8Valid s = true) →
      (cols.map Column.name).Nodup →
      (∀ c ∈ cols, ∀ p ∈ acc, p.1 ≠ c.name) →
      ∃ delta,
        fillCols acc cols bbs = some (acc ++ delta) ∧
        ∀ junk, (∀ c ∈ cols, ∀ p ∈ junk, p.1 ≠ c.name) →
          rawCols (junk ++ delta) cols = some bbs := by
  intro cols
  induction cols with
  | nil =>
    intro attrs bbs acc h _ _ _
    rw [rawCols] at h
    simp only [Option.some.injEq] at h
    subst h
    exact ⟨[], by simp [fillCols], fun junk _ => by rw [rawCols]⟩
  | cons c cs ih =>
    intro attrs bbs acc h htext hnodup hacc
    obtain ⟨t, bs, restb, hl, hb, hrest, hbbs⟩ := rawCols_cons_inv attrs c cs bbs h
    have hnodup' : (cs.map Column.name).Nodup := (List.nodup_cons.mp (by simpa using hnodup)).2
    have hcname : c.name ∉ cs.map Column.name := (List.nodup_cons.mp (by simpa using hnodup)).1
    rcases colBytes_inv c t bs hb with ⟨v, hty, ht, hbsv⟩ | ⟨s, hty, ht, hslen, hbsv⟩
    · -- int column
      subst ht hbsv hbbs
      have hlen4 : (i32ToBytes v).length = 4 := rfl
      have htk : (i32ToBytes v ++ restb).take 4 = i32ToBytes v := List.take_left' hlen4
      have hdp : (i32ToBytes v ++ restb).drop 4 = restb := List.drop_left' hlen4
      have hfresh : ∀ c' ∈ cs,
          ∀ p ∈ acc ++ [(c.name, AttributeType.int (i32FromBytes (i32ToBytes v)))],
            p.1 ≠ c'.name := by
        intro c' hc' p hp
        rcases List.mem_append.mp hp with hpa | hpb
        · exact hacc c' (List.mem_cons_of_mem _ hc') p hpa
        · simp only [List.mem_singleton] at hpb
          subst hpb
          show c.name ≠ c'.name
          intro heq
          exact hcname (by rw [heq]; exact List.mem_map_of_mem Column.name hc')
      obtain ⟨delta', h1, h2⟩ := ih attrs restb
        (acc ++ [(c.name, AttributeType.int (i32FromBytes (i32ToBytes v)))]) hrest
        (fun c' hc' => htext c' (List.mem_cons_of_mem _ hc')) hnodup' hfresh
      refine ⟨(c.name, AttributeType.int (i32FromBytes (i32ToBytes v))) :: delta', ?_, ?_⟩
      · have hacc0 : ∀ p ∈ acc, p.1 ≠ c.name :=
          fun p hp => hacc c (List.mem_cons_self c cs) p hp
        have hthis : fillCols acc (c :: cs) (i32ToBytes v ++ restb)
            = fillCols (acc ++ [(c.name, AttributeType.int (i32FromBytes (i32ToBytes v)))])
                cs restb := by
          rw [fillCols, if_pos hty, if_pos (by simp only [List.length_append, hlen4]; omega)]
          rw [htk, hdp, mapInsert_fresh acc c.name _ hacc0]
        rw [hthis, h1]
        simp
      · intro junk hjunk
        have hjc : ∀ p ∈ junk, p.1 ≠ c.name :=
          fun p hp => hjunk c (List.mem_cons_self c cs) p hp
        have hlk : lookupA c.name
            (junk ++ (c.name, AttributeType.int (i32FromBytes (i32ToBytes v))) :: delta')
            = some (AttributeType.int (i32FromBytes (i32ToBytes v))) := by
          rw [lookupA_append _ _ _ hjc, lookupA, if_pos rfl]
        have hcb : colBytes c (AttributeType.int (i32FromBytes (i32ToBytes v)))
            = some (i32ToBytes v) := by
          rw [colBytes, if_pos hty]
          simp only [i32_reencode]
        have hjunk2 : ∀ c' ∈ cs,
            ∀ p ∈ junk ++ [(c.name, AttributeType.int (i32FromBytes (i32ToBytes v)))],
              p.1 ≠ c'.name := by
          intro c' hc' p hp
          rcases List.mem_append.mp hp with hpa | hpb
          · exact hjunk c' (List.mem_cons_of_mem _ hc') p hpa
          · simp only [List.mem_singleton] at hpb
            subst hpb
            show c.name ≠ c'.name
            intro heq
            exact hcname (by rw [heq]; exact List.mem_map_of_mem Column.name hc')
        have hrest' : rawCols
            (junk ++ (c.name, AttributeType.int (i32FromBytes (i32ToBytes v))) :: delta') cs
            = some restb := by
          have := h2 (junk ++ [(c.name, AttributeType.int (i32FromBytes (i32ToBytes v)))]) hjunk2
          simpa using this
        rw [rawCols, hlk]
        simp only [hcb, hrest']
    · -- text column
      subst ht hbsv hbbs
      have hint : ¬ c.types = "int" := by rw [hty]; decide
      have hre : (s ++ List.replicate (255 - s.length) 0).length = 255 := by
        simp only [List.length_append, List.length_replicate]; omega
      have hbbseq : (s.length :: s ++ List.replicate (255 - s.length) 0) ++ restb
          = s.length :: ((s ++ List.replicate (255 - s.length) 0) ++ restb) := by
        simp
      have hvalid : utf8Valid s = true := htext c (List.mem_cons_self c cs) hty s hl
      have hfresh : ∀ c' ∈ cs, ∀ p ∈ acc ++ [(c.name, AttributeType.text s)], p.1 ≠ c'.name := by
        intro c' hc' p hp
        rcases List.mem_append.mp hp with hpa | hpb
        · exact hacc c' (List.mem_cons_of_mem _ hc') p hpa
        · simp only [List.mem_singleton] at hpb
          subst hpb
          show c.name ≠ c'.name
          intro heq
          exact hcname (by rw [heq]; exact List.mem_map_of_mem Column.name hc')
      obtain ⟨delta', h1, h2⟩ := ih attrs restb (acc ++ [(c.name, AttributeType.text s)]) hrest
        (fun c' hc' => htext c' (List.mem_cons_of_mem _ hc')) hnodup' hfresh
      refine ⟨(c.name, AttributeType.text s) :: delta', ?_, ?_⟩
      · have hacc0 : ∀ p ∈ acc, p.1 ≠ c.name :=
          fun p hp => hacc c (List.mem_cons_self c cs) p hp
        have hlen256 : 256 ≤ ((s.length :: s ++ List.replicate (255 - s.length) 0) ++ restb).length := by
          simp only [List.cons_append, List.length_cons, List.length_append,
            List.length_replicate]
          omega
        have hdrop1 : ((s.length :: s ++ List.replicate (255 - s.length) 0) ++ restb).drop 1
            = (s ++ List.replicate (255 - s.length) 0) ++ restb := by
          rw [hbbseq]; simp
        have htake255 : (((s ++ List.replicate (255 - s.length) 0) ++ restb).take 255)
            = s ++ List.replicate (255 - s.length) 0 := List.take_left' hre
        have htakeL : (s ++ List.replicate (255 - s.length) 0).take s.length = s :=
          List.take_left' rfl
        have hdrop256 : ((s.length :: s ++ List.replicate (255 - s.length) 0) ++ restb).drop 256
            = restb := by
          refine List.drop_left' ?_
          simp only [List.length_cons, List.length_append, List.length_replicate]
          omega
        have hthis : fillCols acc (c :: cs)
              ((s.length :: s ++ List.replicate (255 - s.length) 0) ++ restb)
            = fillCols (acc ++ [(c.name, AttributeType.text s)]) cs restb := by
          rw [fillCols, if_neg hint, if_pos hty, if_pos hlen256]
          rw [hbbseq] at hdrop1 hdrop256 ⊢
          simp only [List.headD_cons, hdrop1, htake255, htakeL, hvalid, if_pos, hdrop256]
          rw [mapInsert_fresh acc c.name _ hacc0]
        rw [hthis, h1]
        simp
      · intro junk hjunk
        have hjc : ∀ p ∈ junk, p.1 ≠ c.name :=
          fun p hp => hjunk c (List.mem_cons_self c cs) p hp
        have hlk : lookupA c.name (junk ++ (c.name, AttributeType.text s) :: delta')
            = some (AttributeType.text s) := by
          rw [lookupA_append _ _ _ hjc, lookupA, if_pos rfl]
        have hcb : colBytes c (AttributeType.text s)
            = some (s.length :: s ++ List.replicate (255 - s.length) 0) := by
          rw [colBytes, if_neg hint, if_pos hty]
          simp only [if_pos hslen]
        have hjunk2 : ∀ c' ∈ cs, ∀ p ∈ junk ++ [(c.name, AttributeType.text s)], p.1 ≠ c'.name := by
          intro c' hc' p hp
          rcases List.mem_append.mp hp with hpa | hpb
          · exact hjunk c' (List.mem_cons_of_mem _ hc') p hpa
          · simp only [List.mem_singleton] at hpb
            subst hpb
            show c.name ≠ c'.name
            intro heq
            exact hcname (by rw [heq]; exact List.mem_map_of_mem Column.name hc')
        have hrest' : rawCols (junk ++ (c.name, AttributeType.text s) :: delta') cs
            = some restb := by
          have := h2 (junk ++ [(c.name, AttributeType.text s)]) hjunk2
          simpa using this
        rw [rawCols, hlk]
        simp only [hcb, hrest']

/-- Round trip at the tuple level: bytes produced by `Tuple::raw` decode
via `Tuple::fill` to a tuple that re-encodes to the same bytes. -/
theorem tuple_roundtrip (cols : List Column) (t : Tuple) (bs : List Nat)
    (hnodup : (cols.map Column.name).Nodup)
    (hwf : tupleWF cols t = true)
    (h : t.raw cols = some bs) :
    ∃ t', Tuple.fill bs cols = some t' ∧ t'.raw cols = some bs := by
  obtain ⟨body, hbody, hbs⟩ := tupleRaw_inv cols t bs h
  subst hbs
  obtain ⟨delta, hfill, hre⟩ := fillCols_of_rawCols cols t.body.attributes body []
    hbody (tupleWF_text cols t hwf) hnodup (by simp)
  have hhd : (t.header.raw).length = 8 := by simp [TupleHeader.raw]
  have hmod : t.header.deleted % 256 % 256 = t.header.deleted % 256 := by omega
  refine ⟨⟨⟨t.header.deleted % 256⟩, ⟨delta⟩⟩, ?_, ?_⟩
  · rw [Tuple.fill, if_pos (by simp only [List.length_append, hhd]; omega)]
    rw [List.take_left' hhd, List.drop_left' hhd]
    simp only [TupleHeader.raw, TupleHeader.fill]
    simp only [hfill, List.nil_append]
  · rw [Tuple.raw]
    have hres : rawCols delta cols = some body := by simpa using hre [] (by simp)
    simp only [hres, TupleHeader.raw, hmod]

/-- Inversion of one step of `rawTuples`. -/
theorem rawTuples_cons_inv (cols : List Column) (t : Tuple) (ts : List Tuple)
    (bytes : List Nat) (h : rawTuples cols (t :: ts) = some bytes) :
    ∃ bs rest, t.raw cols = some bs ∧ rawTuples cols ts = some rest ∧ bytes = bs ++ rest := by
  rw [rawTuples] at h
  split at h
  · exact absurd h (by simp)
  next bs hbs =>
    split at h
    · exact absurd h (by simp)
    next rest hrest =>
      simp only [Option.some.injEq] at h
      exact ⟨bs, rest, hbs, hrest, h.symm⟩

theorem rawTuples_length (cols : List Column) :
    ∀ (tups : List Tuple) (bytes : List Nat),
      rawTuples cols tups = some bytes → bytes.length = tups.length * tupleSize cols := by
  intro tups
  induction tups with
  | nil =>
    intro bytes h
    rw [rawTuples] at h
    simp only [Option.some.injEq] at h
    simp [← h]
  | cons t ts ih =>
    intro bytes h
    obtain ⟨bs, rest, hbs, hrest, hby⟩ := rawTuples_cons_inv cols t ts bytes h
    subst hby
    simp only [List.length_append, tupleRaw_length cols t bs hbs, ih rest hrest,
      List.length_cons]
    ring

theorem tupleSize_pos (cols : List Column) : 8 ≤ tupleSize cols := by
  simp [tupleSize, tupleHeaderSize]

/-- The decoding loop of `Page::fill` inverts the encoding loop of
`Page::raw`: if the image from position `offset` on consists of the encoded
tuples followed by anything, the loop recovers tuples that re-encode to the
same bytes. -/
theorem fillTuples_of_rawTuples (cols : List Column)
    (hnodup : (cols.map Column.name).Nodup) :
    ∀ (tups : List Tuple) (bytes suffix full : List Nat) (offset : Nat),
      rawTuples cols tups = some bytes →
      (∀ t ∈ tups, tupleWF cols t = true) →
      full.drop offset = bytes ++ suffix →
      full.length = pageSize →
      ∃ tups', fillTuples cols full offset tups.length = some tups' ∧
        rawTuples cols tups' = some bytes := by
  intro tups
  induction tups with
  | nil =>
    intro bytes suffix full offset h _ _ _
    rw [rawTuples] at h
    simp only [Option.some.injEq] at h
    subst h
    exact ⟨[], by rw [List.length_nil, fillTuples], by rw [rawTuples]⟩
  | cons t ts ih =>
    intro bytes suffix full offset h hwf hdrop hfull
    obtain ⟨bs, rest, hbs, hrest, hby⟩ := rawTuples_cons_inv cols t ts bytes h
    subst hby
    have hbsl : bs.length = tupleSize cols := tupleRaw_length cols t bs hbs
    have hdl : (full.drop offset).length = full.length - offset := List.length_drop offset full
    have hguard : offset + tupleSize cols ≤ full.length := by
      rw [hdrop] at hdl
      simp only [List.length_append, hbsl] at hdl
      have := tupleSize_pos cols
      omega
    have hassoc : (bs ++ rest) ++ suffix = bs ++ (rest ++ suffix) := List.append_assoc bs rest suffix
    have hslice : (full.drop offset).take (tupleSize cols) = bs := by
      rw [hdrop, hassoc]
      exact List.take_left' hbsl
    obtain ⟨t', hfill, hre⟩ := tuple_roundtrip cols t bs hnodup
      (hwf t (List.mem_cons_self t ts)) hbs
    have hdrop' : full.drop (offset + tupleSize cols) = rest ++ suffix := by
      have h1 : (full.drop offset).drop (tupleSize cols) = full.drop (offset + tupleSize cols) :=
        List.drop_drop (tupleSize cols) offset full
      rw [← h1, hdrop, hassoc]
      exact List.drop_left' hbsl
    obtain ⟨tups', hfts, hres⟩ := ih rest suffix full (offset + tupleSize cols) hrest
      (fun u hu => hwf u (List.mem_cons_of_mem _ hu)) hdrop' hfull
    refine ⟨t' :: tups', ?_, ?_⟩
    · show fillTuples cols full offset (ts.length + 1) = some (t' :: tups')
      rw [fillTuples, if_pos hguard, hslice, hfill, hfts]
    · rw [rawTuples, hre, hres]

theorem pageHeaderRaw_length (h : PageHeader) : (PageHeader.raw h).length = 32 := by
  simp [PageHeader.raw, be4]

/-- **C7 — the page codec round-trips bit-exactly.**  For every schema
(columns with unique names) and every well-formed page (the Rust type
invariants: `tuple_count` equals the number of tuples, text attributes
valid UTF-8), a 4096-byte image produced by `Page::raw` decodes via
`Page::fill` to a page that re-encodes to exactly the same bytes. -/
theorem page_codec_roundtrip (cols : List Column) (p : Page) (b : List Nat)
    (hnodup : (cols.map Column.name).Nodup)
    (hwf : pageWF cols p = true)
    (henc : p.raw cols = some b)
    (hlen : b.length = pageSize) :
    ∃ p', Page.fill defaultPage b cols = some p' ∧ p'.raw cols = some b := by
  rw [pageWF, Bool.and_eq_true, beq_iff_eq, List.all_eq_true] at hwf
  obtain ⟨hcount, htwf⟩ := hwf
  rw [Page.raw] at henc
  split at henc
  · exact absurd henc (by simp)
  next bytes hbytes =>
    simp only [Option.some.injEq] at henc
    have hbl : bytes.length = p.body.length * tupleSize cols :=
      rawTuples_length cols p.body bytes hbytes
    have hbase : (PageHeader.raw p.header ++ bytes).length
        = 32 + p.body.length * tupleSize cols := by
      simp [pageHeaderRaw_length, hbl]
    -- both padding cases collapse to `b = base ++ replicate k 0`
    have hb : b = (PageHeader.raw p.header ++ bytes)
          ++ List.replicate (pageSize - (32 + p.body.length * tupleSize cols)) 0
        ∧ 32 + p.body.length * tupleSize cols ≤ pageSize := by
      by_cases hc : (PageHeader.raw p.header ++ bytes).length < pageSize
      · rw [if_pos hc] at henc
        constructor
        · rw [← henc, hbase]
        · rw [hbase] at hc; omega
      · rw [if_neg hc] at henc
        have hble : (PageHeader.raw p.header ++ bytes).length = pageSize := by
          rw [henc]; exact hlen
        rw [hbase] at hble
        constructor
        · rw [← henc, hble]
          simp
        · omega
    obtain ⟨hbeq, hcap⟩ := hb
    have hcsmall : p.body.length < 2 ^ 32 := by
      have := tupleSize_pos cols
      have : p.body.length * tupleSize cols ≥ p.body.length * 8 :=
        Nat.mul_le_mul_left _ (tupleSize_pos cols)
      simp only [pageSize] at hcap
      omega
    -- the decoded header
    have hhdr : PageHeader.raw p.header
        = be4 (p.header.tuple_count % 2 ^ 32) ++ List.replicate 28 0 := rfl
    have htake4 : b.take 4 = be4 (p.header.tuple_count % 2 ^ 32) := by
      rw [hbeq, hhdr]
      rw [List.append_assoc, List.append_assoc]
      exact List.take_left' rfl
    have htake32 : (b.take 32).take 4 = b.take 4 := by
      rw [List.take_take]
      norm_num
    have hfillhdr : PageHeader.fill (b.take 32) = ⟨p.body.length⟩ := by
      rw [PageHeader.fill, htake32, htake4, fromBe4_be4]
      have : p.header.tuple_count % 2 ^ 32 % 2 ^ 32 = p.header.tuple_count % 2 ^ 32 := by omega
      rw [this, hcount]
      have : p.body.length % 2 ^ 32 = p.body.length := Nat.mod_eq_of_lt hcsmall
      rw [this]
    have hdrop32 : b.drop 32 = bytes
        ++ List.replicate (pageSize - (32 + p.body.length * tupleSize cols)) 0 := by
      rw [hbeq, List.append_assoc]
      exact List.drop_left' (pageHeaderRaw_length p.header)
    obtain ⟨tups', hfts, hres⟩ := fillTuples_of_rawTuples cols hnodup p.body bytes
      (List.replicate (pageSize - (32 + p.body.length * tupleSize cols)) 0) b 32
      hbytes htwf hdrop32 hlen
    refine ⟨⟨0, ⟨p.body.length⟩, tups'⟩, ?_, ?_⟩
    · rw [Page.fill, if_pos hlen]
      simp only [hfillhdr, hfts]
      rfl
    · rw [Page.raw]
      simp only [hres]
      have hhdr' : PageHeader.raw ⟨p.body.length⟩ = PageHeader.raw p.header := by
        rw [PageHeader.raw, PageHeader.raw, hcount]
      rw [hhdr']
      -- the padded image is b again, by the same case analysis
      by_cases hc : (PageHeader.raw p.header ++ bytes).length < pageSize
      · rw [if_pos hc, hbeq, hbase]
      · rw [if_neg hc]
        have hz : pageSize - (32 + p.body.length * tupleSize cols) = 0 := by
          rw [hbase] at hc
          omega
        rw [hbeq, hz]
        simp

/-! ### Concrete instances for the codec claims -/

/-- The two-column schema of the repository's tests: `i: int`, `s: text`. -/
def cols0 : List Column := [⟨"int", "i"⟩, ⟨"text", "s"⟩]

/-- A concrete tuple `{i: 1, s: "ab"}` (`"ab"` = bytes 97, 98). -/
def tup0 : Tuple := ⟨⟨0⟩, ⟨[("i", AttributeType.int 1), ("s", AttributeType.text [97, 98])]⟩⟩

def pg0 : Page := ⟨0, ⟨1⟩, [tup0]⟩

/-- The encoded tuple bytes of `tup0`. -/
def tb0 : List Nat := (tup0.raw cols0).getD []

/-- The 4096-byte image of `pg0`. -/
def b0 : List Nat := (PageHeader.raw ⟨1⟩ ++ tb0) ++ List.replicate 3796 0

theorem page_codec_roundtrip_witness :
    ∃ p', Page.fill defaultPage b0 cols0 = some p' ∧ p'.raw cols0 = some b0 := by
  have h1 : rawTuples cols0 pg0.body = some tb0 := by decide
  have hL : (PageHeader.raw pg0.header ++ tb0).length = 300 := by decide
  have henc : pg0.raw cols0 = some b0 := by
    rw [Page.raw, h1]
    simp only [hL, pageSize]
    rw [if_pos (by norm_num)]
    rfl
  have hlen : b0.length = pageSize := by
    simp only [b0, List.length_append, List.length_replicate, pageSize]
    decide
  exact page_codec_roundtrip cols0 pg0 b0 (by decide) (by decide) henc hlen

/-! ### Text length bounds (claim C9) -/

/-- The single text column used to exercise the text bounds. -/
def colT : Column := ⟨"text", "s"⟩

/-- A tuple whose only attribute is the text value `s`. -/
def mkTextTuple (s : List Nat) : Tuple := ⟨⟨0⟩, ⟨[("s", AttributeType.text s)]⟩⟩

/-- **C9 — text boundary behaviour of the tuple codec.**  A text value of
byte length 0 round-trips unchanged through `TupleBody::raw` /
`TupleBody::fill`; so does every (valid UTF-8) text value of byte length
255; and encoding a text value of byte length 256 produces no tuple image
at all — the `255 - len` computation in `TupleBody::raw` underflows and the
encoder rejects the value (a panic in the source: no corrupted image is
ever produced). -/
theorem text_length_bounds :
    (∃ bs, (mkTextTuple []).raw [colT] = some bs ∧
       Tuple.fill bs [colT] = some (mkTextTuple [])) ∧
    (∀ s : List Nat, s.length = 255 → utf8Valid s = true →
       ∃ bs, (mkTextTuple s).raw [colT] = some bs ∧
         Tuple.fill bs [colT] = some (mkTextTuple s)) ∧
    (∀ s : List Nat, s.length = 256 → (mkTextTuple s).raw [colT] = none) := by
  refine ⟨⟨((mkTextTuple []).raw [colT]).getD [], by decide, by decide⟩, ?_, ?_⟩
  · intro s h255 hval
    have hl255 : s.length ≤ 255 := by omega
    have hlk : lookupA colT.name (mkTextTuple s).body.attributes
        = some (AttributeType.text s) := by
      show lookupA "s" [("s", AttributeType.text s)] = some (AttributeType.text s)
      rw [lookupA, if_pos rfl]
    have hcb : colBytes colT (AttributeType.text s)
        = some (s.length :: s ++ List.replicate (255 - s.length) 0) := by
      rw [colBytes, if_neg (by decide), if_pos (by decide), if_pos hl255]
    have henc : (mkTextTuple s).raw [colT]
        = some ((mkTextTuple s).header.raw
            ++ ((s.length :: s ++ List.replicate (255 - s.length) 0) ++ [])) := by
      rw [Tuple.raw, rawCols, hlk]
      simp only [hcb, rawCols]
    refine ⟨_, henc, ?_⟩
    have hhd : ((mkTextTuple s).header.raw).length = 8 := by
      simp [mkTextTuple, TupleHeader.raw]
    have hbody : (s.length :: s ++ List.replicate (255 - s.length) 0) ++ []
        = s.length :: (s ++ List.replicate (255 - s.length) 0) := by simp
    have hre : (s ++ List.replicate (255 - s.length) 0).length = 255 := by
      simp only [List.length_append, List.length_replicate]; omega
    have hb256 : (s.length :: (s ++ List.replicate (255 - s.length) 0)).length = 256 := by
      simp only [List.length_cons, hre]
    have hth : TupleHeader.fill ((mkTextTuple s).header.raw)
        = some ⟨0⟩ := by
      simp [mkTextTuple, TupleHeader.raw, TupleHeader.fill]
    have hfc : fillCols [] [colT] (s.length :: (s ++ List.replicate (255 - s.length) 0))
        = some [("s", AttributeType.text s)] := by
      rw [fillCols, if_neg (by decide), if_pos (by decide), if_pos (by simp [hb256])]
      have hdrop1 : (s.length :: (s ++ List.replicate (255 - s.length) 0)).drop 1
          = s ++ List.replicate (255 - s.length) 0 := by simp
      have htake255 : (s ++ List.replicate (255 - s.length) 0).take 255
          = s ++ List.replicate (255 - s.length) 0 :=
        List.take_of_length_le (le_of_eq hre)
      have htakeL : (s ++ List.replicate (255 - s.length) 0).take s.length = s :=
        List.take_left' rfl
      have hdrop256 : (s.length :: (s ++ List.replicate (255 - s.length) 0)).drop 256 = [] :=
        List.drop_of_length_le (le_of_eq hb256)
      simp only [List.headD_cons, hdrop1, htake255, htakeL, hval, if_pos, hdrop256]
      rw [fillCols]
      simp [mapInsert, colT]
    rw [Tuple.fill, if_pos (by
      simp only [List.length_append, hhd, hbody, hb256]; omega)]
    rw [List.take_left' hhd, List.drop_left' hhd, hbody]
    simp only [hth, hfc]
    rfl
  · intro s h256
    have hnle : ¬ s.length ≤ 255 := by omega
    have hlk : lookupA colT.name (mkTextTuple s).body.attributes
        = some (AttributeType.text s) := by
      show lookupA "s" [("s", AttributeType.text s)] = some (AttributeType.text s)
      rw [lookupA, if_pos rfl]
    have hcb : colBytes colT (AttributeType.text s) = none := by
      rw [colBytes, if_neg (by decide), if_pos (by decide), if_neg hnle]
    rw [Tuple.raw, rawCols, hlk]
    simp only [hcb]

theorem text_length_bounds_witness :
    (∃ bs, (mkTextTuple (List.replicate 255 97)).raw [colT] = some bs ∧
       Tuple.fill bs [colT] = some (mkTextTuple (List.replicate 255 97))) ∧
    (mkTextTuple (List.replicate 256 97)).raw [colT] = none :=
  ⟨text_length_bounds.2.1 (List.replicate 255 97) (by simp) (by decide),
   text_length_bounds.2.2 (List.replicate 256 97) (by simp)⟩

/-! ### Decoding is partial on invalid UTF-8 (claim C10) -/

/-- A 4096-byte page image: `tuple_count = 1`, one tuple for the schema
`[s: text]` whose text column declares length `L = 1` and whose single
meaningful payload byte is `0xFF` — not valid UTF-8. -/
def badImg : List Nat :=
  (be4 1 ++ List.replicate 28 0)
    ++ (((0 :: List.replicate 7 0) ++ (1 :: 255 :: List.replicate 254 0))
      ++ List.replicate 3800 0)

/-- **C10 — tuple decoding is partial at the public interface.**  `badImg`
is a 4096-byte image whose header carries the valid tuple count 1 (one
tuple of the single-text-column schema fits comfortably in the page), yet
`Page::fill` / `TupleBody::fill` produce no page for it: the declared text
length covers the byte `0xFF`, `String::from_utf8` fails and the `unwrap`
panics (modelled as `none` — `fill` has no error return path). -/
theorem tuple_decode_panics_on_invalid_utf8 :
    badImg.length = pageSize ∧
    (PageHeader.fill (badImg.take 32)).tuple_count = 1 ∧
    pageHeaderSize + 1 * tupleSize [colT] ≤ pageSize ∧
    Page.fill defaultPage badImg [colT] = none := by
  have hA : ((be4 1 ++ List.replicate 28 0) : List Nat).length = 32 := by decide
  have hB : (((0 :: List.replicate 7 0) ++ (1 :: 255 :: List.replicate 254 0)) : List Nat).length
      = 264 := by decide
  have hts : tupleSize [colT] = 264 := by decide
  have hlen : badImg.length = pageSize := by
    simp only [badImg, List.length_append, hA, hB, List.length_replicate, pageSize]
  have htake32 : badImg.take 32 = be4 1 ++ List.replicate 28 0 := List.take_left' hA
  have h4 : (be4 1 ++ List.replicate 28 0).take 4 = be4 1 := List.take_left' rfl
  have hhdr : PageHeader.fill (badImg.take 32) = ⟨1⟩ := by
    rw [htake32, PageHeader.fill, h4, fromBe4_be4]
    norm_num
  have hdrop32 : badImg.drop 32
      = ((0 :: List.replicate 7 0) ++ (1 :: 255 :: List.replicate 254 0))
        ++ List.replicate 3800 0 := by
    rw [badImg]
    exact List.drop_left' hA
  have hslice : (badImg.drop 32).take (tupleSize [colT])
      = (0 :: List.replicate 7 0) ++ (1 :: 255 :: List.replicate 254 0) := by
    rw [hdrop32, hts]
    exact List.take_left' hB
  have htf : Tuple.fill ((0 :: List.replicate 7 0) ++ (1 :: 255 :: List.replicate 254 0)) [colT]
      = none := by decide
  refine ⟨hlen, by rw [hhdr], by rw [hts, pageHeaderSize, pageSize]; omega, ?_⟩
  rw [Page.fill, if_pos hlen, hhdr]
  have hft : fillTuples [colT] badImg 32 1 = none := by
    rw [fillTuples, if_pos (by rw [hlen, pageSize, hts]; omega), hslice, htf]
  simp only [hft]

/-! ## Query parser (`src/query.rs`)

Queries are `List Char` (the Rust `&str`); tokens are `List Char`.  The
error messages of the source are elided: the model only distinguishes a
parsed query, a returned `Err` (ParseError) and a panic. -/

/-- `ExecuteType` (the `SelectInput` / `InsertInput` payload structs
inlined). -/
inductive ExecuteType where
  | select (table_name : String)
  | insert (table_name : String) (attributes : List (String × AttributeType))
deriving DecidableEq

/-- Outcome of `Parser::parse`: a parsed query, a returned `Err`, or a
Rust panic (the `parse().unwrap()` and `String::remove(0)` calls in
`parse_insert` can panic). -/
inductive ParseOutcome where
  | ok (e : ExecuteType)
  | perr
  | panicked
deriving DecidableEq

/-- Rust `str::split(c)` (keeps empty fragments; always returns at least
one fragment). -/
def splitAux (c : Char) (acc : List Char) : List Char → List (List Char)
  | [] => [acc.reverse]
  | x :: xs => if x = c then acc.reverse :: splitAux c [] xs else splitAux c (x :: acc) xs

/-- UTF-8 encoding of one scalar value (for `String::as_bytes`). -/
def charUtf8 (c : Char) : List Nat :=
  let n := c.toNat
  if n < 0x80 then [n]
  else if n < 0x800 then [0xC0 + n / 64, 0x80 + n % 64]
  else if n < 0x10000 then [0xE0 + n / 4096, 0x80 + n / 64 % 64, 0x80 + n % 64]
  else [0xF0 + n / 262144, 0x80 + n / 4096 % 64, 0x80 + n / 64 % 64, 0x80 + n % 64]

/-- Byte sequence of a Rust string (`String::as_bytes`). -/
def strBytes (cs : List Char) : List Nat := (cs.map charUtf8).flatten

/-- Accumulate decimal digits; `none` on a non-digit. -/
def digitsGo : List Char → Nat → Option Nat
  | [], acc => some acc
  | c :: rest, acc => if c.isDigit then digitsGo rest (acc * 10 + (c.toNat - 48)) else none

/-- Value of a nonempty all-digit string. -/
def digitsVal (cs : List Char) : Option Nat :=
  match cs with
  | [] => none
  | _ => digitsGo cs 0

/-- `str::parse::<i32>`: optional sign, at least one digit, result within
the `i32` range. -/
def parseI32 (cs : List Char) : Option Int :=
  match cs with
  | '+' :: rest =>
    match digitsVal rest with
    | some n => if n ≤ 2 ^ 31 - 1 then some (n : Int) else none
    | none => none
  | '-' :: rest =>
    match digitsVal rest with
    | some n => if n ≤ 2 ^ 31 then some (-(n : Int)) else none
    | none => none
  | _ =>
    match digitsVal cs with
    | some n => if n ≤ 2 ^ 31 - 1 then some (n : Int) else none
    | none => none

/-- `HashMap<&str, &str>::insert` for the raw attribute tokens. -/
def rawInsert (m : List (List Char × List Char)) (k v : List Char) :
    List (List Char × List Char) :=
  match m with
  | [] => [(k, v)]
  | (k', v') :: rest => if k' = k then (k, v) :: rest else (k', v') :: rawInsert rest k v

/-- `HashMap<&str, &str>::get`. -/
def rawGet (k : List Char) : List (List Char × List Char) → Option (List Char)
  | [] => none
  | (k', v) :: rest => if k' = k then some v else rawGet k rest

/-- Result of the attribute-gathering loop of `parse_insert`. -/
inductive GatherResult where
  | gok (raw : List (List Char × List Char))
  | gmalformed
  | gnoclose
deriving DecidableEq

/-- The inner loop of `parse_insert`: walk the tokens after the first `(`
until `)`; every token must split on `=` into exactly two parts
(`Specify an attribute like column_name=value` otherwise); exhausting the
tokens without `)` is `not found )`. -/
def gatherAttrs (acc : List (List Char × List Char)) :
    List (List Char) → GatherResult
  | [] => .gnoclose
  | x :: xs =>
    if x = [')'] then .gok acc
    else
      match splitAux '=' [] x with
      | [a, b] => gatherAttrs (rawInsert acc a b) xs
      | _ => .gmalformed

/-- Find the first `(` token and return the tokens after it (the outer
`'o` loop of `parse_insert`). -/
def afterParen : List (List Char) → Option (List (List Char))
  | [] => none
  | x :: xs => if x = ['('] then some xs else afterParen xs

/-- The per-column loop of `parse_insert`: every table column must appear
among the gathered raw attributes (`Err` otherwise); an `int` value goes
through `value.parse().unwrap()` — a panic when it does not parse; a
`text` value loses its first (`remove(0)` — panics on an empty token) and
last (`pop`) characters with no quote check; an unknown column type is an
`Err`. -/
def buildAttrs (tn : String) (raw : List (List Char × List Char))
    (acc : List (String × AttributeType)) : List Column → ParseOutcome
  | [] => .ok (.insert tn acc)
  | c :: cs =>
    match rawGet c.name.toList raw with
    | none => .perr
    | some value =>
      if c.types = "int" then
        match parseI32 value with
        | some v => buildAttrs tn raw (mapInsert acc c.name (.int v)) cs
        | none => .panicked
      else if c.types = "text" then
        match value with
        | [] => .panicked
        | _ :: vrest => buildAttrs tn raw (mapInsert acc c.name (.text (strBytes vrest.dropLast))) cs
      else .perr

/-- `Parser::parse_select`: needs at least 4 tokens, the table name is
token 3 and must exist in the catalog. -/
def parse_select (cat : List Schema) (tokens : List (List Char)) : ParseOutcome :=
  if tokens.length < 4 then .perr
  else
    let tn := tokens.getD 3 []
    if existTable cat ⟨tn⟩ then .ok (.select ⟨tn⟩) else .perr

/-- `Parser::parse_insert`: needs at least 6 tokens, the table name is
token 2; gather the attributes between `(` and `)` (no `(` leaves them
empty), then check every column. -/
def parse_insert (cat : List Schema) (tokens : List (List Char)) : ParseOutcome :=
  if tokens.length < 6 then .perr
  else
    let tn := tokens.getD 2 []
    match findSchema cat ⟨tn⟩ with
    | none => .perr
    | some schema =>
      match afterParen tokens with
      | none => buildAttrs ⟨tn⟩ [] [] schema.table.columns
      | some rest =>
        match gatherAttrs [] rest with
        | .gok raw => buildAttrs ⟨tn⟩ raw [] schema.table.columns
        | _ => .perr

/-- `Parser::parse`: the query must end in `;` (which is popped), the
first whitespace token selects the verb; anything but `select` / `insert`
is rejected. -/
def parse (cat : List Schema) (query : List Char) : ParseOutcome :=
  if query.getLast? = some ';' then
    match splitAux ' ' [] query.dropLast with
    | [] => .perr
    | t0 :: rest =>
      if t0 = "select".toList then parse_select cat (t0 :: rest)
      else if t0 = "insert".toList then parse_insert cat (t0 :: rest)
      else .perr
  else .perr

/-- The catalog `t(i: int, s: text)` used by the parser claims. -/
def cat8 : List Schema := [⟨⟨"t", [⟨"int", "i"⟩, ⟨"text", "s"⟩]⟩⟩]

/-- **C8 (amended) — parser rejection.**  A query not terminated by `;` is
rejected with a `ParseError` for every catalog and every query; so is a
query whose leading token is neither `select` nor `insert`; a malformed
attribute token (no `=`), and a table column missing from the attribute
list, are rejected on the concrete catalog `t(i:int, s:text)`.  A value
whose type does not match an `int` column, however, panics in
`value.parse().unwrap()` instead of returning a `ParseError` (final
conjunct — the correction this claim needs). -/
theorem parser_rejects_malformed :
    (∀ (cat : List Schema) (q : List Char), q.getLast? ≠ some ';' →
      parse cat q = .perr) ∧
    (∀ (cat : List Schema) (q : List Char) (t0 : List Char) (rest : List (List Char)),
      splitAux ' ' [] q.dropLast = t0 :: rest →
      t0 ≠ "select".toList → t0 ≠ "insert".toList → parse cat q = .perr) ∧
    parse cat8 "update users;".toList = .perr ∧
    parse cat8 "select * from users".toList = .perr ∧
    parse cat8 "insert into t ( ix s='y' );".toList = .perr ∧
    parse cat8 "insert into t ( i=1 );".toList = .perr ∧
    parse cat8 "insert into t ( i=x s='y' );".toList = .panicked := by
  refine ⟨?_, ?_, by decide, by decide, by decide, by decide, by decide⟩
  · intro cat q h
    rw [parse, if_neg h]
  · intro cat q t0 rest hsplit h1 h2
    rw [parse]
    by_cases hq : q.getLast? = some ';'
    · rw [if_pos hq, hsplit]
      simp only [if_neg h1, if_neg h2]
    · rw [if_neg hq]

theorem parser_rejects_malformed_witness :
    parse cat8 "select * from users".toList = .perr ∧
    parse cat8 "update users;".toList = .perr :=
  ⟨parser_rejects_malformed.1 cat8 "select * from users".toList (by decide),
   parser_rejects_malformed.2.1 cat8 "update users;".toList "update".toList
     ["users".toList] (by decide) (by decide) (by decide)⟩

/-- **C8 counterexample.**  With the catalog `t(i:int, s:text)`, the query
`insert into t ( i=x s='y' );` — a value whose type does not match the
`int` column — makes the parser panic (`value.parse().unwrap()`), not
return a `ParseError` result. -/
theorem parser_int_mismatch_panics :
    parse cat8 "insert into t ( i=x s='y' );".toList = .panicked ∧
    ParseOutcome.panicked ≠ ParseOutcome.perr := ⟨by decide, by decide⟩

/-! ## Buffer pool manager (`src/storage/*.rs`), as a state machine

Every operation takes the state and returns `(result, state')`; `none`
results are propagated errors.  The sharded page table's `DefaultHasher`
is an opaque parameter `hash`; with `pool_size = 1` every key lands in the
single bucket (`hash k % 1 = 0`) whatever the hash function, so the
concrete traces below are stated for *every* `hash`. -/

/-- `LruReplacer` over `lru::LruCache` (most-recently-used at the list
head). -/
structure LruReplacer where
  cap : Nat
  cache : List Nat
deriving DecidableEq

/-- `LruCache::pop_lru` — remove and return the least-recently-used id. -/
def LruReplacer.victim (r : LruReplacer) : Option Nat × LruReplacer :=
  match r.cache.getLast? with
  | none => (none, r)
  | some x => (some x, ⟨r.cap, r.cache.dropLast⟩)

/-- `LruCache::pop` — `Replacer::pin` removes the id.  (The manager's hit
path never calls this; see claim C1.) -/
def LruReplacer.pin (r : LruReplacer) (id : Nat) : LruReplacer :=
  ⟨r.cap, r.cache.erase id⟩

/-- `LruCache::put` — `Replacer::unpin` inserts/refreshes the id at the
most-recently-used end, evicting the LRU entry if the capacity would be
exceeded. -/
def LruReplacer.unpin (r : LruReplacer) (id : Nat) : LruReplacer :=
  let l := id :: r.cache.erase id
  ⟨r.cap, if r.cap < l.length then l.dropLast else l⟩

/-- `Descriptor { id, dirty, buffer_pool_id, pin_count }`. -/
structure Descriptor where
  id : Nat
  dirty : Bool
  buffer_pool_id : Nat
  pin_count : Nat
deriving DecidableEq

/-- `Descriptor::pin` — increment the pin count. -/
def Descriptor.pin (d : Descriptor) : Descriptor := { d with pin_count := d.pin_count + 1 }

/-- `Descriptor::pinned`. -/
def Descriptor.pinned (d : Descriptor) : Bool := decide (0 < d.pin_count)

/-- `Descriptor::reset` — clear the dirty bit, zero the pin count. -/
def Descriptor.reset (d : Descriptor) : Descriptor := { d with dirty := false, pin_count := 0 }

def dfltDescriptor : Descriptor := ⟨0, false, 0, 0⟩

/-- `Buffer { id, page }`. -/
structure Buffer where
  id : Nat
  page : Page
deriving DecidableEq

def dfltBuffer : Buffer := ⟨0, defaultPage⟩

/-- The page-table key `Key { page_id, table_name }`. -/
structure Key where
  page_id : Nat
  table_name : String
deriving DecidableEq

/-- `Bucket::get` — the first pair with this key. -/
def bucketGet (items : List (Key × Nat)) (key : Key) : Option Nat :=
  match items with
  | [] => none
  | (k, v) :: rest => if k = key then some v else bucketGet rest key

/-- `Bucket::put` — replace the first pair with this key, else push. -/
def bucketPut (items : List (Key × Nat)) (key : Key) (v : Nat) : List (Key × Nat) :=
  match items with
  | [] => [(key, v)]
  | (k, v') :: rest => if k = key then (key, v) :: rest else (k, v') :: bucketPut rest key v

/-- `Bucket::remove` — `retain` drops every pair with this key. -/
def bucketRemove (items : List (Key × Nat)) (key : Key) : List (Key × Nat) :=
  items.filter (fun p => decide (p.1 ≠ key))

/-- `DiskManager` state: the catalog, one file per table at page
granularity (the byte-level codec is claims C7/C9/C10), and the
environment fault oracle `failWrite` that makes file writes fail. -/
structure DiskManager where
  catalog : List Schema
  files : List (String × List Page)
  failWrite : Bool
deriving DecidableEq

/-- The file of a table (`OpenOptions::create(true)`: a missing file reads
as empty). -/
def fileGet (files : List (String × List Page)) (t : String) : List Page :=
  match files with
  | [] => []
  | (n, f) :: rest => if n = t then f else fileGet rest t

def fileSet (files : List (String × List Page)) (t : String) (f : List Page) :
    List (String × List Page) :=
  match files with
  | [] => [(t, f)]
  | (n, f') :: rest => if n = t then (t, f) :: rest else (n, f') :: fileSet rest t f

/-- `DiskManager::read`: fails on a short read (page beyond the file) or a
table missing from the catalog; the returned page carries the requested
id. -/
def DiskManager.read (dm : DiskManager) (p_id : Nat) (t : String) : Option Page :=
  match (fileGet dm.files t).get? p_id with
  | none => none
  | some pg =>
    match findSchema dm.catalog t with
    | none => none
    | some _ => some { pg with id := p_id }

/-- `DiskManager::write`: fails when the table is missing from the catalog
or the fault oracle is set; a seek past the end of the file leaves a zero
hole, which reads back as empty pages. -/
def DiskManager.write (dm : DiskManager) (p : Page) (t : String) : Option DiskManager :=
  match findSchema dm.catalog t with
  | none => none
  | some _ =>
    if dm.failWrite then none
    else
      let f := fileGet dm.files t
      let f' :=
        if p.id < f.length then f.set p.id p
        else f ++ List.replicate (p.id - f.length) defaultPage ++ [p]
      some { dm with files := fileSet dm.files t f' }

/-- `DiskManager::allocate_page`: the new id is the current page count; an
empty page is written there so the file grows. -/
def DiskManager.allocate_page (dm : DiskManager) (t : String) : Option (Page × DiskManager) :=
  let new_page : Page := { defaultPage with id := (fileGet dm.files t).length }
  match dm.write new_page t with
  | none => none
  | some dm' => some (new_page, dm')

/-- `DiskManager::last_page_id`: `None` iff the file is empty. -/
def DiskManager.last_page_id (dm : DiskManager) (t : String) : Option Nat :=
  if (fileGet dm.files t).length = 0 then none
  else some ((fileGet dm.files t).length - 1)

/-- The state of `BufferPoolManager`. -/
structure BPM where
  replacer : LruReplacer
  disk_manager : DiskManager
  buffer_pool : List Buffer
  page_table : List (List (Key × Nat))
  descriptors : List Descriptor
deriving DecidableEq

/-- `BufferPoolManager::new`: `pool_size` frames holding default pages,
descriptors bound one-to-one, `pool_size` empty page-table buckets, and
every descriptor id unpinned into the replacer in index order.  `files`
is the content of the `base_path` directory at startup. -/
def mkManager (pool_size : Nat) (cat : List Schema) (files : List (String × List Page)) :
    BPM where
  replacer := (List.range pool_size).foldl (fun r i => r.unpin i) ⟨pool_size, []⟩
  disk_manager := ⟨cat, files, false⟩
  buffer_pool := (List.range pool_size).map (fun n => ⟨n, defaultPage⟩)
  page_table := List.replicate pool_size []
  descriptors := (List.range pool_size).map (fun n => ⟨n, false, n, 0⟩)

/-- `BufferPoolManager::victim_descriptor`: write the frame back if the
descriptor is dirty — to the table of the *in-flight request*, the only
table name in scope (see claim C5) — then reset and pin the descriptor.
On a write failure nothing is changed. -/
def victim_descriptor (st : BPM) (d_id : Nat) (t : String) : Option Nat × BPM :=
  let d := st.descriptors.getD d_id dfltDescriptor
  let buf := st.buffer_pool.getD d.buffer_pool_id dfltBuffer
  if d.dirty then
    match st.disk_manager.write buf.page t with
    | none => (none, st)
    | some dm' =>
      (some d.buffer_pool_id,
       { st with disk_manager := dm',
                 descriptors := st.descriptors.set d_id d.reset.pin })
  else
    (some d.buffer_pool_id,
     { st with descriptors := st.descriptors.set d_id d.reset.pin })

/-- `load_page_to_buffer_pool`: read the page from disk into the frame. -/
def load_page_to_buffer_pool (st : BPM) (p_id buffer_pool_id : Nat) (t : String) :
    Option Nat × BPM :=
  match st.disk_manager.read p_id t with
  | none => (none, st)
  | some page =>
    (some buffer_pool_id,
     { st with buffer_pool := st.buffer_pool.set buffer_pool_id ⟨buffer_pool_id, page⟩ })

/-- The **load** subroutine `load_page_from_storage_to_buffer_pool`: pop a
victim from the replacer, write it back if dirty, remap the page table —
the victim key is built from the frame's *current* page id and the
*request's* table name — and read the requested page into the frame. -/
def load_page_from_storage_to_buffer_pool (hash : Key → Nat) (st : BPM)
    (p_id : Nat) (t : String) : Option Nat × BPM :=
  match st.replacer.victim with
  | (none, _) => (none, st)
  | (some victim_id, r') =>
    let st1 := { st with replacer := r' }
    match victim_descriptor st1 victim_id t with
    | (none, st2) => (none, st2)
    | (some buffer_pool_id, st2) =>
      let victim_page_id := (st2.buffer_pool.getD buffer_pool_id dfltBuffer).page.id
      let victim_key : Key := ⟨victim_page_id, t⟩
      let target_key : Key := ⟨p_id, t⟩
      let size := st2.page_table.length
      let vi := hash victim_key % size
      let ti := hash target_key % size
      let pt' :=
        if vi = ti then
          st2.page_table.set vi
            (bucketPut (bucketRemove (st2.page_table.getD vi []) victim_key)
              target_key victim_id)
        else
          let pt1 := st2.page_table.set vi
            (bucketRemove (st2.page_table.getD vi []) victim_key)
          pt1.set ti (bucketPut (pt1.getD ti []) target_key victim_id)
      load_page_to_buffer_pool { st2 with page_table := pt' } p_id buffer_pool_id t

/-- `BufferPoolManager::mark_dirty` (descriptor id = buffer pool id). -/
def mark_dirty (st : BPM) (buffer_pool_id : Nat) : Option Unit × BPM :=
  let d := st.descriptors.getD buffer_pool_id dfltDescriptor
  (some (),
   { st with descriptors := st.descriptors.set buffer_pool_id { d with dirty := true } })

/-- `BufferPoolManager::new_buffer`: allocate a fresh page on disk, then
load it. -/
def new_buffer (hash : Key → Nat) (st : BPM) (t : String) : Option Nat × BPM :=
  match st.disk_manager.allocate_page t with
  | none => (none, st)
  | some (new_page, dm') =>
    load_page_from_storage_to_buffer_pool hash { st with disk_manager := dm' } new_page.id t

/-- `BufferPoolManager::fetch_buffer`: a hit pins the descriptor and
returns the frame — it does *not* touch the replacer (claim C1); a miss
enters the load subroutine. -/
def fetch_buffer (hash : Key → Nat) (st : BPM) (p_id : Nat) (t : String) :
    Option Nat × BPM :=
  let key : Key := ⟨p_id, t⟩
  let idx := hash key % st.page_table.length
  match bucketGet (st.page_table.getD idx []) key with
  | some d_id =>
    let d := st.descriptors.getD d_id dfltDescriptor
    (some d.buffer_pool_id, { st with descriptors := st.descriptors.set d_id d.pin })
  | none => load_page_from_storage_to_buffer_pool hash st p_id t

/-- `BufferPoolManager::unpin_buffer`: a no-op when the key is absent;
otherwise decrement the pin count (`usize` underflow — a panic — when it
is already 0, modelled as `none`) and hand the id to the replacer when it
reaches 0. -/
def unpin_buffer (hash : Key → Nat) (st : BPM) (p_id : Nat) (t : String) :
    Option Unit × BPM :=
  let key : Key := ⟨p_id, t⟩
  let idx := hash key % st.page_table.length
  match bucketGet (st.page_table.getD idx []) key with
  | none => (some (), st)
  | some d_id =>
    let d := st.descriptors.getD d_id dfltDescriptor
    match d.pin_count with
    | 0 => (none, st)
    | n + 1 =>
      let st' := { st with descriptors := st.descriptors.set d_id { d with pin_count := n } }
      if n = 0 then (some (), { st' with replacer := st'.replacer.unpin d_id })
      else (some (), st')

/-! ## Executor (`src/executor.rs`) -/

/-- Mutation of a frame's page through the buffer's write lock — how the
executor (and the repository's tests) write tuples into a fetched frame. -/
def write_frame (st : BPM) (buffer_pool_id : Nat) (f : Page → Page) : BPM :=
  let buf := st.buffer_pool.getD buffer_pool_id dfltBuffer
  { st with buffer_pool := st.buffer_pool.set buffer_pool_id ⟨buf.id, f buf.page⟩ }

/-- Modelled from the spec: `Page::can_add_tuple` is called by
`Executor::find_writable_buffer` (src/executor.rs line 37) but its
definition is not present under src/; spec §4.2 defines it as
`32 + (tuple_count + 1) × tuple_size ≤ PAGE_SIZE`. -/
def Page.can_add_tuple (p : Page) (cols : List Column) : Bool :=
  decide (pageHeaderSize + (p.header.tuple_count + 1) * tupleSize cols ≤ pageSize)

/-- `Executor::find_writable_buffer`: fetch the last page if the table has
one; if the tuple does not fit, unpin it and allocate a new page.  (The
source calls `unpin_buffer(p_id)`; the table argument is the in-scope
`table_name`.) -/
def find_writable_buffer (hash : Key → Nat) (st : BPM) (t : String) : Option Nat × BPM :=
  match st.disk_manager.last_page_id t with
  | none => new_buffer hash st t
  | some p_id =>
    match fetch_buffer hash st p_id t with
    | (none, st') => (none, st')
    | (some buffer_pool_id, st') =>
      let pg := (st'.buffer_pool.getD buffer_pool_id dfltBuffer).page
      let cols :=
        match findSchema st'.disk_manager.catalog t with
        | some s => s.table.columns
        | none => []
      if pg.can_add_tuple cols then (some buffer_pool_id, st')
      else
        match unpin_buffer hash st' p_id t with
        | (none, st'') => (none, st'')
        | (some _, st'') => new_buffer hash st'' t

/-- `Executor::insert`: find a writable buffer, build the tuple from the
attribute map, append it to the frame's page through the write lock, and
unpin by the page's id.  No `mark_dirty` call appears anywhere in the
source of `insert` — claim C3. -/
def executor_insert (hash : Key → Nat) (st : BPM)
    (attributes : List (String × AttributeType)) (t : String) : Option Unit × BPM :=
  match find_writable_buffer hash st t with
  | (none, st') => (none, st')
  | (some buffer_pool_id, st') =>
    let tup : Tuple := ⟨⟨0⟩, ⟨attributes.foldl (fun m p => mapInsert m p.1 p.2) []⟩⟩
    let st2 := write_frame st' buffer_pool_id (fun pg => pg.add_tuple tup)
    let page_id := (st2.buffer_pool.getD buffer_pool_id dfltBuffer).page.id
    match unpin_buffer hash st2 page_id t with
    | (none, st3) => (none, st3)
    | (some _, st3) => (some (), st3)

/-- The `for id in 0..=last` loop of `Executor::scan`, accumulating
*every* tuple's attribute map (the `deleted` flag is never consulted —
claim C4). -/
def scanIds (hash : Key → Nat) (t : String) : BPM → List Nat →
    Option (List (List (String × AttributeType))) × BPM
  | st, [] => (some [], st)
  | st, i :: rest =>
    match fetch_buffer hash st i t with
    | (none, st') => (none, st')
    | (some buffer_pool_id, st') =>
      let pg := (st'.buffer_pool.getD buffer_pool_id dfltBuffer).page
      let recs := pg.body.map (fun tp => tp.body.attributes)
      match unpin_buffer hash st' pg.id t with
      | (none, st'') => (none, st'')
      | (some _, st'') =>
        match scanIds hash t st'' rest with
        | (none, st3) => (none, st3)
        | (some rs, st3) => (some (recs ++ rs), st3)

/-- `Executor::scan`. -/
def executor_scan (hash : Key → Nat) (st : BPM) (t : String) :
    Option (List (List (String × AttributeType))) × BPM :=
  match st.disk_manager.last_page_id t with
  | none => (some [], st)
  | some last => scanIds hash t st (List.range (last + 1))

/-! ## Concrete catalogs and traces for the buffer-pool claims

All traces run with `pool_size = 1`: the page table then has a single
bucket and the shard index is `hash k % 1 = 0` for *every* hash function,
so the theorems quantify over the hash. -/

/-- The catalog `t(i: int)`. -/
def catT : List Schema := [⟨⟨"t", [⟨"int", "i"⟩]⟩⟩]

/-- The two-table catalog `A(i: int)`, `B(i: int)`. -/
def catAB : List Schema := [⟨⟨"A", [⟨"int", "i"⟩]⟩⟩, ⟨⟨"B", [⟨"int", "i"⟩]⟩⟩]

/-- **C1 — the replacer/pin invariant is broken by the hit path of
`fetch_buffer`; evaluation of the code at the failing trace.**  Pool size
1, table `t`; trace `new_buffer(t)`, `unpin_buffer(0,t)`,
`fetch_buffer(0,t)` (a cache hit — the code pins the descriptor but never
calls `replacer.pin`).  At the public-operation boundary after the hit the
descriptor's pin count is 1 yet its id 0 is still in the replacer, and
`replacer.victim()` returns the pinned frame — the invariant
`pin_count > 0 ⇔ absent from the replacer` fails, for every hash
function. -/
theorem fetch_hit_leaves_pinned_frame_in_replacer (hash : Key → Nat) :
    ((fetch_buffer hash
        ((unpin_buffer hash ((new_buffer hash (mkManager 1 catT []) "t").2) 0 "t").2)
        0 "t").2.descriptors.getD 0 dfltDescriptor).pin_count = 1 ∧
    (fetch_buffer hash
        ((unpin_buffer hash ((new_buffer hash (mkManager 1 catT []) "t").2) 0 "t").2)
        0 "t").2.replacer.cache = [0] ∧
    (fetch_buffer hash
        ((unpin_buffer hash ((new_buffer hash (mkManager 1 catT []) "t").2) 0 "t").2)
        0 "t").2.replacer.victim.1 = some 0 := by
  refine ⟨?_, ?_, ?_⟩ <;>
    simp [fetch_buffer, unpin_buffer, new_buffer, mkManager,
      load_page_from_storage_to_buffer_pool, victim_descriptor, load_page_to_buffer_pool,
      LruReplacer.victim, LruReplacer.unpin, Descriptor.reset, Descriptor.pin,
      DiskManager.allocate_page, DiskManager.write, DiskManager.read,
      DiskManager.last_page_id, fileGet, fileSet, findSchema, bucketGet, bucketPut,
      bucketRemove, dfltDescriptor, dfltBuffer, defaultPage, Nat.mod_one, catT,
      List.range_succ]

/-- **C2 — the page table keeps a stale entry after eviction; evaluation
of the code at the failing trace.**  Pool size 1, tables `A` and `B`;
trace `new_buffer(A)`, `unpin(0,A)`, `new_buffer(B)`, `unpin(0,B)`.  The
load subroutine builds the victim's key from the in-flight table name, so
evicting `A`'s page 0 removes the (absent) key `(0,B)` and leaves `(0,A)`
behind: afterwards both `(0,A)` and `(0,B)` map to frame 0 — a frame id
under two keys, and an entry for the non-resident page `(A,0)` — for
every hash function. -/
theorem load_leaves_stale_page_table_entry (hash : Key → Nat) :
    bucketGet
      (((unpin_buffer hash ((new_buffer hash
          ((unpin_buffer hash ((new_buffer hash (mkManager 1 catAB []) "A").2) 0 "A").2)
          "B").2) 0 "B").2).page_table.getD 0 []) ⟨0, "A"⟩ = some 0 ∧
    bucketGet
      (((unpin_buffer hash ((new_buffer hash
          ((unpin_buffer hash ((new_buffer hash (mkManager 1 catAB []) "A").2) 0 "A").2)
          "B").2) 0 "B").2).page_table.getD 0 []) ⟨0, "B"⟩ = some 0 := by
  constructor <;>
    simp [fetch_buffer, unpin_buffer, new_buffer, mkManager,
      load_page_from_storage_to_buffer_pool, victim_descriptor, load_page_to_buffer_pool,
      LruReplacer.victim, LruReplacer.unpin, Descriptor.reset, Descriptor.pin,
      DiskManager.allocate_page, DiskManager.write, DiskManager.read,
      DiskManager.last_page_id, fileGet, fileSet, findSchema, bucketGet, bucketPut,
      bucketRemove, dfltDescriptor, dfltBuffer, defaultPage, Nat.mod_one, catAB,
      List.range_succ]

/-- **C3 — `Executor::insert` never calls `mark_dirty`; evaluation of the
code at the failing input.**  Pool size 1, table `t`, one insert of
`{i: 5}` into the empty table: the insert succeeds, the tuple is appended
to the frame's page — and the frame's descriptor is still clean
(`dirty = false`), so the claimed post-condition `dirty = true` fails, for
every hash function. -/
theorem executor_insert_does_not_mark_dirty (hash : Key → Nat) :
    (executor_insert hash (mkManager 1 catT []) [("i", AttributeType.int 5)] "t").1
      = some () ∧
    ((executor_insert hash (mkManager 1 catT []) [("i", AttributeType.int 5)] "t").2.buffer_pool.getD
        0 dfltBuffer).page.body
      = [⟨⟨0⟩, ⟨[("i", AttributeType.int 5)]⟩⟩] ∧
    ((executor_insert hash (mkManager 1 catT []) [("i", AttributeType.int 5)] "t").2.descriptors.getD
        0 dfltDescriptor).dirty = false := by
  refine ⟨?_, ?_, ?_⟩ <;>
    simp [executor_insert, find_writable_buffer, write_frame, fetch_buffer, unpin_buffer,
      new_buffer, mkManager, load_page_from_storage_to_buffer_pool, victim_descriptor,
      load_page_to_buffer_pool, LruReplacer.victim, LruReplacer.unpin, Descriptor.reset,
      Descriptor.pin, DiskManager.allocate_page, DiskManager.write, DiskManager.read,
      DiskManager.last_page_id, fileGet, fileSet, findSchema, bucketGet, bucketPut,
      bucketRemove, dfltDescriptor, dfltBuffer, defaultPage, Page.add_tuple, mapInsert,
      Nat.mod_one, catT, List.range_succ]

/-- The tuple `{i: 7}` written into table `A`'s page 0 in the C5 trace. -/
def tupA : Tuple := ⟨⟨0⟩, ⟨[("i", AttributeType.int 7)]⟩⟩

/-- **C5 — a dirty victim is written to the wrong table's file;
evaluation of the code at the failing input.**  Pool size 1, tables `A`
and `B`; trace: `new_buffer(A)` (page 0 of `A`), write `tupA` into the
frame through the buffer lock, `mark_dirty(0)`, `unpin(0,A)`, then
`new_buffer(B)`.  The load subroutine evicts the dirty frame and calls
`disk_manager.write(frame, table_name)` with the *request's* table `B`:
afterwards `A`'s file still holds only the empty page while `B`'s file
holds the evicted page with `tupA` — the evicted page's state is *not* on
`A`'s disk when its frame is reassigned (and `B`'s file is corrupted) —
for every hash function. -/
theorem dirty_victim_written_to_wrong_table (hash : Key → Nat) :
    fileGet ((new_buffer hash
        ((unpin_buffer hash ((mark_dirty (write_frame
            ((new_buffer hash (mkManager 1 catAB []) "A").2) 0
            (fun pg => pg.add_tuple tupA)) 0).2) 0 "A").2)
        "B").2.disk_manager.files) "A" = [⟨0, ⟨0⟩, []⟩] ∧
    fileGet ((new_buffer hash
        ((unpin_buffer hash ((mark_dirty (write_frame
            ((new_buffer hash (mkManager 1 catAB []) "A").2) 0
            (fun pg => pg.add_tuple tupA)) 0).2) 0 "A").2)
        "B").2.disk_manager.files) "B" = [⟨0, ⟨1⟩, [tupA]⟩] := by
  constructor <;>
    simp [mark_dirty, write_frame, unpin_buffer, new_buffer, mkManager,
      load_page_from_storage_to_buffer_pool, victim_descriptor, load_page_to_buffer_pool,
      LruReplacer.victim, LruReplacer.unpin, Descriptor.reset, Descriptor.pin,
      DiskManager.allocate_page, DiskManager.write, DiskManager.read,
      DiskManager.last_page_id, fileGet, fileSet, findSchema, bucketGet, bucketPut,
      bucketRemove, dfltDescriptor, dfltBuffer, defaultPage, Page.add_tuple, tupA,
      Nat.mod_one, catAB, List.range_succ]

/-- **C6 — failure semantics of a dirty-victim write failure.**  In any
manager state whose replacer yields a victim with a dirty descriptor, if
the disk write fails (the fault oracle), the load subroutine — and hence
`fetch_buffer` on a miss, which calls it — returns an error with only the
replacer's pop applied: the descriptors (dirty bit still true by `hd`, pin
count not incremented), the page table (victim key not removed, new key
not inserted) and the buffer pool (the frame still caches the victim
page) are all unchanged. -/
theorem load_write_failure (hash : Key → Nat) (st : BPM) (v : Nat) (r' : LruReplacer)
    (p_id : Nat) (t : String)
    (hvic : st.replacer.victim = (some v, r'))
    (hd : (st.descriptors.getD v dfltDescriptor).dirty = true)
    (hfail : st.disk_manager.failWrite = true) :
    load_page_from_storage_to_buffer_pool hash st p_id t = (none, { st with replacer := r' }) ∧
    (bucketGet (st.page_table.getD (hash ⟨p_id, t⟩ % st.page_table.length) []) ⟨p_id, t⟩ = none →
      fetch_buffer hash st p_id t = (none, { st with replacer := r' })) := by
  have hw : ∀ p : Page, st.disk_manager.write p t = none := by
    intro p
    unfold DiskManager.write
    split
    · rfl
    · rw [if_pos hfail]
  have hvd : victim_descriptor { st with replacer := r' } v t
      = (none, { st with replacer := r' }) := by
    rw [victim_descriptor]
    simp only [hd, if_true, hw]
  have hmain : load_page_from_storage_to_buffer_pool hash st p_id t
      = (none, { st with replacer := r' }) := by
    rw [load_page_from_storage_to_buffer_pool, hvic]
    simp only [hvd]
  refine ⟨hmain, fun hmiss => ?_⟩
  rw [fetch_buffer]
  simp only [hmiss]
  exact hmain

/-- A one-frame manager with a dirty, unpinned frame and a failing disk:
the concrete instance of claim C6. -/
def c6state : BPM :=
  ⟨⟨1, [0]⟩, ⟨catT, [], true⟩, [⟨0, defaultPage⟩], [[]], [⟨0, true, 0, 0⟩]⟩

theorem load_write_failure_witness :
    load_page_from_storage_to_buffer_pool (fun _ => 0) c6state 0 "t"
      = (none, { c6state with replacer := ⟨1, []⟩ }) :=
  (load_write_failure (fun _ => 0) c6state 0 ⟨1, []⟩ 0 "t" (by decide) (by decide) rfl).1

/-! ### Claim C4: scan and the `deleted` flag -/

/-- A tuple whose `deleted` flag is 1, resident on disk at startup. -/
def tupDel : Tuple := ⟨⟨1⟩, ⟨[("i", AttributeType.int 9)]⟩⟩

/-- **C4 counterexample.**  With table `t`'s file holding one page with
one tuple whose `deleted` flag is 1, `Executor::scan` returns that
tuple's attribute map: tuples with `deleted == 1` are *not* excluded (the
claimed result would have been the empty sequence).  Pool size 1, so the
bucket index is `hash k % 1 = 0` whatever the hash; stated at the
constant-zero hash to keep the input concrete. -/
theorem scan_returns_deleted_tuple :
    tupDel.header.deleted = 1 ∧
    (executor_scan (fun _ => 0) (mkManager 1 catT [("t", [⟨0, ⟨1⟩, [tupDel]⟩])]) "t").1
      = some [[("i", AttributeType.int 9)]] :=
  ⟨rfl, by decide⟩

/-- The scan loop on a fresh one-frame manager: starting from the state
left by the previous iteration (page table holding one key the incoming
fetch misses, the replacer holding the sole frame), scanning pages
`i, i+1, …` returns every tuple's attribute map of `pages.drop i`, in
order. -/
theorem scanIds_fresh_loop (hash : Key → Nat) (t : String) (cat : List Schema)
    (pages : List Page) (s : Schema) (hcat : findSchema cat t = some s) :
    ∀ (n : Nat), ∀ (i : Nat) (b : List (Key × Nat)) (buf : Buffer),
      i + n = pages.length →
      bucketGet b ⟨i, t⟩ = none →
      bucketPut (bucketRemove b ⟨buf.page.id, t⟩) ⟨i, t⟩ 0 = [(⟨i, t⟩, 0)] →
      ∃ st',
        scanIds hash t ⟨⟨1, [0]⟩, ⟨cat, [(t, pages)], false⟩, [buf], [b], [⟨0, false, 0, 0⟩]⟩
          (List.range' i n)
        = (some (((pages.drop i).map
            (fun p => p.body.map (fun tp => tp.body.attributes))).flatten), st') := by
  intro n
  induction n with
  | zero =>
    intro i b buf h1 _ _
    refine ⟨⟨⟨1, [0]⟩, ⟨cat, [(t, pages)], false⟩, [buf], [b], [⟨0, false, 0, 0⟩]⟩, ?_⟩
    rw [show List.range' i 0 = [] from rfl, scanIds]
    rw [List.drop_of_length_le (by omega)]
    rfl
  | succ n ih =>
    intro i b buf h1 h2 h3
    have hi : i < pages.length := by omega
    have hpi : pages[i]? = some pages[i] := List.getElem?_eq_getElem hi
    have hfetch : fetch_buffer hash
        ⟨⟨1, [0]⟩, ⟨cat, [(t, pages)], false⟩, [buf], [b], [⟨0, false, 0, 0⟩]⟩ i t
        = (some 0,
           ⟨⟨1, []⟩, ⟨cat, [(t, pages)], false⟩,
            [⟨0, ⟨i, (pages[i]).header, (pages[i]).body⟩⟩],
            [[(⟨i, t⟩, 0)]], [⟨0, false, 0, 1⟩]⟩) := by
      simp [fetch_buffer, load_page_from_storage_to_buffer_pool, victim_descriptor,
        load_page_to_buffer_pool, LruReplacer.victim, Descriptor.reset, Descriptor.pin,
        DiskManager.read, fileGet, dfltDescriptor, dfltBuffer, h2, h3, hpi, hcat,
        Nat.mod_one]
    have hunpin : unpin_buffer hash
        ⟨⟨1, []⟩, ⟨cat, [(t, pages)], false⟩,
         [⟨0, ⟨i, (pages[i]).header, (pages[i]).body⟩⟩],
         [[(⟨i, t⟩, 0)]], [⟨0, false, 0, 1⟩]⟩ i t
        = (some (),
           ⟨⟨1, [0]⟩, ⟨cat, [(t, pages)], false⟩,
            [⟨0, ⟨i, (pages[i]).header, (pages[i]).body⟩⟩],
            [[(⟨i, t⟩, 0)]], [⟨0, false, 0, 0⟩]⟩) := by
      simp [unpin_buffer, bucketGet, LruReplacer.unpin, dfltDescriptor, Nat.mod_one]
    have hne : (⟨i, t⟩ : Key) ≠ ⟨i + 1, t⟩ := by
      intro hcon
      have := congrArg Key.page_id hcon
      simp only at this
      omega
    have h2' : bucketGet [((⟨i, t⟩ : Key), 0)] ⟨i + 1, t⟩ = none := by
      rw [bucketGet, if_neg hne, bucketGet]
    have h3' : bucketPut
        (bucketRemove [((⟨i, t⟩ : Key), 0)]
          ⟨(⟨0, ⟨i, (pages[i]).header, (pages[i]).body⟩⟩ : Buffer).page.id, t⟩)
        ⟨i + 1, t⟩ 0 = [(⟨i + 1, t⟩, 0)] := by
      show bucketPut (bucketRemove [((⟨i, t⟩ : Key), 0)] ⟨i, t⟩) ⟨i + 1, t⟩ 0 = _
      simp [bucketRemove, bucketPut]
    obtain ⟨st', hrec⟩ := ih (i + 1) [(⟨i, t⟩, 0)]
      ⟨0, ⟨i, (pages[i]).header, (pages[i]).body⟩⟩ (by omega) h2' h3'
    refine ⟨st', ?_⟩
    rw [List.range'_succ, scanIds, hfetch]
    simp only [List.getD_cons_zero, hunpin, hrec]
    rw [List.drop_eq_getElem_cons hi]
    rfl

/-- **C4 (amended) — scan returns the attribute maps of *all* tuples.**
On a fresh one-frame manager over any catalog containing the table and any
on-disk file contents, `Executor::scan` returns exactly the attribute maps
of every tuple of pages `0..=last_page_id` — page id ascending, insertion
order within a page — regardless of the tuples' `deleted` flags (the flag
is never consulted). -/
theorem scan_returns_all_tuples (hash : Key → Nat) (t : String) (cat : List Schema)
    (pages : List Page) (s : Schema) (hcat : findSchema cat t = some s) :
    (executor_scan hash (mkManager 1 cat [(t, pages)]) t).1
      = some ((pages.map (fun p => p.body.map (fun tp => tp.body.attributes))).flatten) := by
  have hmk : mkManager 1 cat [(t, pages)]
      = ⟨⟨1, [0]⟩, ⟨cat, [(t, pages)], false⟩, [⟨0, defaultPage⟩], [[]], [⟨0, false, 0, 0⟩]⟩ :=
    rfl
  rw [executor_scan, hmk]
  cases pages with
  | nil =>
    simp [DiskManager.last_page_id, fileGet]
  | cons p0 rest =>
    have hlast : DiskManager.last_page_id ⟨cat, [(t, p0 :: rest)], false⟩ t
        = some ((p0 :: rest).length - 1) := by
      rw [DiskManager.last_page_id]
      simp [fileGet]
    rw [hlast]
    have hrange : (p0 :: rest).length - 1 + 1 = (p0 :: rest).length := by
      simp
    obtain ⟨st', hsc⟩ := scanIds_fresh_loop hash t cat (p0 :: rest) s hcat
      (p0 :: rest).length 0 [] ⟨0, defaultPage⟩ (by omega) rfl rfl
    simp only [hrange, List.range_eq_range', hsc, List.drop_zero]

theorem scan_returns_all_tuples_witness :
    (executor_scan (fun _ => 0) (mkManager 1 catT [("t", [⟨0, ⟨1⟩, [tupA]⟩])]) "t").1
      = some [[("i", AttributeType.int 7)]] := by
  have h := scan_returns_all_tuples (fun _ => 0) "t" catT [⟨0, ⟨1⟩, [tupA]⟩]
    ⟨⟨"t", [⟨"int", "i"⟩]⟩⟩ (by decide)
  simpa [tupA] using h

end AquaDB
